import Mathlib

/-!
# asciiart: luminance mapping, renderer, alphabet registry and command line

A shallow embedding of `main.go`.

* A Go `string` / `[]byte` is a sequence of bytes: `List UInt8`.
* A run-time panic (index or slice bounds out of range, negative `make` length)
  is the result `none`.
* The `float64` arithmetic of the bucket-index expression is modelled exactly
  (round to nearest, ties to even, 53-bit significand) on the non-negative
  dyadic values that can occur there.
* The standard library and third-party collaborators (`image.Decode`,
  `resize.Resize`, `http.Get`, `os.Open`, `color.GrayModel`) are parameters.
-/

set_option autoImplicit false

namespace Asciiart

/-! ## Go strings -/

/-- A Go string: an immutable sequence of bytes. -/
abbrev GoString := List UInt8

/-- The bytes of a string literal (Go source files are UTF-8). -/
def str (s : String) : GoString := s.data.flatMap String.utf8EncodeChar

/-! ## float64 on the values used by `printTo` -/

/-- Nearest natural number with at most 53 significant bits, ties to even:
the value of `float64(n)` for a non-negative integer `n`. -/
def rne53 (n : Nat) : Nat :=
  if n < 2 ^ 53 then n
  else
    let s := Nat.log2 n - 52
    let q := n / 2 ^ s
    let r := n % 2 ^ s
    if r < 2 ^ (s - 1) then q * 2 ^ s
    else if r = 2 ^ (s - 1) ∧ q % 2 = 0 then q * 2 ^ s
    else (q + 1) * 2 ^ s

/-- A non-negative finite `float64` value `num / 2 ^ scale`, where `num` has at
most 53 significant bits.  The exponent range is not modelled: every value that
`printTo` computes lies between `2 ^ (-8)` and `2 ^ 71`, or is zero. -/
structure float64 where
  num : Nat
  scale : Nat
deriving DecidableEq

/-- Conversion `float64(n)` of a non-negative integer. -/
def float64.ofNat (n : Nat) : float64 := ⟨rne53 n, 0⟩

/-- Division `a / 256.0`: exact, the divisor being a power of two. -/
def float64.div256 (a : float64) : float64 := ⟨a.num, a.scale + 8⟩

/-- Multiplication `a * b`: the exact product, rounded to nearest even. -/
def float64.mul (a b : float64) : float64 := ⟨rne53 (a.num * b.num), a.scale + b.scale⟩

/-- Conversion `int(a)`: truncation towards zero. -/
def float64.toInt (a : float64) : Nat := a.num / 2 ^ a.scale

/-- The bucket index `int(float64(g.Y)/256.0*float64(len(mapping)))` of
`printTo`, for a sample `g` and an alphabet of length `len`. -/
def index (g len : Nat) : Nat :=
  (((float64.ofNat g).div256).mul (float64.ofNat len)).toInt

/-! ## Alphabet registry -/

/-- Go `type alphabet string`. -/
abbrev alphabet := GoString

/-- The catalogue `alphabets`, a map literal with five distinct keys. -/
def alphabets : List (GoString × alphabet) :=
  [ (str "heuristic", str "#=$8Z7I\\O?+:-,. "),
    (str "alternate", str "@#8&o:*. "),
    (str "asciifi1", str "@GCLftli;:,. "),
    (str "asciifi2", str "#WMBRXVYIti+=;:,. "),
    (str "asciifi3", str "##XXxxx+++===---;;,,...  ") ]

/-- Method `(c *alphabet) String()`.  Go ranges over a map in an unspecified
order; `order` is the order in which the entries of `alphabets` are visited. -/
def alphabet.String (order : List (GoString × alphabet)) (c : alphabet) : GoString :=
  match order.find? (fun kv => c == kv.2) with
  | some kv => kv.1
  | none => str "unknown"

/-- Method `(a *alphabet) Set(value string) error`: the new value of the
receiver and the returned error (`none` for `nil`). -/
def alphabet.Set (a : alphabet) (value : GoString) : alphabet × Option GoString :=
  match alphabets.lookup value with
  | none => (a, some (str "no such alphabet " ++ value))
  | some newA => (newA, none)

/-! ## Renderer -/

/-- Go `image.Point`. -/
structure Point where
  X : Int
  Y : Int
deriving DecidableEq

/-- Go `image.Rectangle`. -/
structure Rectangle where
  Min : Point
  Max : Point
deriving DecidableEq

/-- Method `Rectangle.Dx`. -/
def Rectangle.Dx (r : Rectangle) : Int := r.Max.X - r.Min.X

/-- Method `Rectangle.Dy`. -/
def Rectangle.Dy (r : Rectangle) : Int := r.Max.Y - r.Min.Y

/-- What `printTo` uses of an `image.Image`: its bounds, and for each point the
`Y` field (a `uint8`) of `color.GrayModel.Convert(img.At(x, y)).(color.Gray)`. -/
structure Image where
  Bounds : Rectangle
  GrayAt : Int → Int → UInt8

/-- The loop `for i := lo; i < lo + n; i++ { body }`, over a state that a panic in
the body aborts. -/
def forRange {σ : Type} (body : Int → σ → Option σ) : Nat → Int → σ → Option σ
  | 0, _, s => some s
  | n + 1, i, s => (body i s).bind (forRange body n (i + 1))

/-- The loop `for i := lo; i < hi; i++ { body }`. -/
def forLoop {σ : Type} (lo hi : Int) (body : Int → σ → Option σ) (s : σ) : Option σ :=
  forRange body (hi - lo).toNat lo s

/-- The slice store `line[x] = c`; out of range is a panic. -/
def setIndex (line : List UInt8) (x : Int) (c : UInt8) : Option (List UInt8) :=
  if 0 ≤ x ∧ x < line.length then some (line.set x.toNat c) else none

/-- The body of the inner loop of `printTo` for the pixel `(x, y)`. -/
def printPixel (img : Image) (mapping : alphabet) (y x : Int) (line : List UInt8) :
    Option (List UInt8) :=
  let g := img.GrayAt x y
  match mapping[index g.toNat mapping.length]? with
  | none => none
  | some c => setIndex line x c

/-- The body of the outer loop of `printTo` for the row `y`, on the pair of the
line buffer and the bytes written so far. -/
def printRow (img : Image) (mapping : alphabet) (y : Int) (st : List UInt8 × List UInt8) :
    Option (List UInt8 × List UInt8) :=
  (forLoop img.Bounds.Min.X img.Bounds.Max.X (printPixel img mapping y) st.1).map
    (fun line => (line, st.2 ++ (line ++ [10])))

/-- Function `printTo`: the bytes of `out` after the call (`out` is the content
before it), or `none` when the call panics. -/
def printTo (img : Image) (out : List UInt8) (mapping : alphabet) : Option (List UInt8) :=
  let r := img.Bounds
  if r.Dx < 0 then none
  else
    let line : List UInt8 := List.replicate r.Dx.toNat 0
    (forLoop r.Min.Y r.Max.Y (printRow img mapping) (line, out)).map Prod.snd

/-! ## Command line -/

/-- The reader `in` that `main` decodes the image from. -/
inductive Input where
  | stdin
  | file (path : GoString)
  | httpBody (url : GoString)
deriving DecidableEq

/-- The writer `out` that `main` prints to. -/
inductive Output where
  | stdout
  | file (path : GoString)
deriving DecidableEq

/-- How a run of `main` ends: `os.Exit(code)`, a run-time panic, or a return
from `main` after `printTo` has handed `written` to `out`. -/
inductive Outcome where
  | exit (code : Nat)
  | panic
  | done (out : Output) (written : List UInt8)
deriving DecidableEq

/-- The collaborators of `main`.  `httpGet url` is `none` when `http.Get`
returns an error and the status code of the response otherwise; `osOpen path`
tells whether `os.Open` succeeds; `decode r` is `none` when `image.Decode`
returns an error; `resize w img` is `resize.Resize(w, 0, img, resize.Bilinear)`. -/
structure World where
  httpGet : GoString → Option Nat
  osOpen : GoString → Bool
  decode : Input → Option Image
  resize : Nat → Image → Image

/-- The slice expression `s[:n]`; `n > len(s)` is a panic. -/
def sliceTo (s : GoString) (n : Nat) : Option GoString :=
  if n ≤ s.length then some (s.take n) else none

/-- The first part of `main`: the choice of `in` from the positional
arguments, or the way the run ends there. -/
def openInput (w : World) (args : List GoString) : Except Outcome Input :=
  match args with
  | [] => .ok .stdin
  | inf :: _ =>
    match sliceTo inf 4 with
    | none => .error .panic
    | some p =>
      if p = str "http" then
        match w.httpGet inf with
        | none => .error (.exit 1)
        | some status => if status ≠ 200 then .error (.exit 1) else .ok (.httpBody inf)
      else if w.osOpen inf then .ok (.file inf)
      else .error (.exit 1)

/-- The second part of `main`: the choice of `out`. -/
def openOutput (w : World) (args : List GoString) : Except Outcome Output :=
  match args with
  | _ :: outf :: _ => if w.osOpen outf then .ok (.file outf) else .error (.exit 2)
  | _ => .ok .stdout

/-- Function `main` after `flag.Parse`: `width` and `alphabetFlag` are the
parsed flags and `args` is `flag.Args()`. -/
def main (w : World) (width : Int) (alphabetFlag : alphabet) (args : List GoString) : Outcome :=
  match openInput w args with
  | .error o => o
  | .ok inp =>
    match openOutput w args with
    | .error o => o
    | .ok out =>
      match w.decode inp with
      | none => .exit 3
      | some img =>
        let thumb := w.resize (width % 2 ^ 64).toNat img
        match printTo thumb [] alphabetFlag with
        | none => .panic
        | some written => .done out written

/-! ## Expected output of the renderer -/

/-- The byte that the luminance mapping selects for the pixel `(x, y)`. -/
def pixelByte (img : Image) (mapping : alphabet) (x y : Int) : UInt8 :=
  mapping.getD (index (img.GrayAt x y).toNat mapping.length) 0

/-- The bytes of row `y` of an image of width `W` whose columns start at 0. -/
def rowBytes (img : Image) (mapping : alphabet) (W : Nat) (y : Int) : List UInt8 :=
  (List.range W).map (fun (x : Nat) => pixelByte img mapping (x : Int) y)

/-- The rows `y0`, ..., `y0 + n - 1`, in that order. -/
def rowsFrom (img : Image) (mapping : alphabet) (W : Nat) (y0 : Int) (n : Nat) :
    List (List UInt8) :=
  (List.range n).map (fun (i : Nat) => rowBytes img mapping W (y0 + (i : Int)))

/-- The byte stream of a list of lines: every line is followed by a newline. -/
def joinLines (lines : List (List UInt8)) : List UInt8 :=
  lines.flatMap (fun l => l ++ [10])

/-! ## Concrete inputs -/

/-- The byte of an ASCII character. -/
def byteOf (c : Char) : UInt8 := c.toNat.toUInt8

/-- An alphabet of 257 bytes: 256 times `a`, then `b`. -/
def wideAlphabet : alphabet := List.replicate 256 (byteOf 'a') ++ [byteOf 'b']

/-- A black image of one pixel whose bounds are `(1,0)-(2,1)`. -/
def offsetImage : Image := ⟨⟨⟨1, 0⟩, ⟨2, 1⟩⟩, fun _ _ => 0⟩

/-- A world in which every fetch, every open and every decode fails. -/
def failingWorld : World := ⟨fun _ => none, fun _ => false, fun _ => none, fun _ img => img⟩

/-! ## Rounding -/

theorem rne53_of_lt {n : Nat} (h : n < 2 ^ 53) : rne53 n = n := by
  unfold rne53
  rw [if_pos h]

/-- Above `2 ^ 53` the rounding step `2 ^ s` is twice the tie distance. -/
theorem rne53_step {n : Nat} (h : 2 ^ 53 ≤ n) :
    1 ≤ Nat.log2 n - 52 ∧ 2 ^ (Nat.log2 n - 52) = 2 * 2 ^ (Nat.log2 n - 52 - 1) ∧
      2 ^ Nat.log2 n = 2 ^ 52 * 2 ^ (Nat.log2 n - 52) := by
  have hn : n ≠ 0 := by
    have : 0 < 2 ^ 53 := by norm_num
    omega
  have h53 : 53 ≤ Nat.log2 n := (Nat.le_log2 hn).2 h
  refine ⟨by omega, ?_, ?_⟩
  · rw [← pow_succ']
    congr 1
    omega
  · rw [← pow_add]
    congr 1
    omega

/-- The rounded value is one of the two neighbouring multiples of the step. -/
theorem rne53_cases {n : Nat} (h : 2 ^ 53 ≤ n) :
    (rne53 n = n / 2 ^ (Nat.log2 n - 52) * 2 ^ (Nat.log2 n - 52) ∧
        n % 2 ^ (Nat.log2 n - 52) ≤ 2 ^ (Nat.log2 n - 52 - 1)) ∨
      (rne53 n = (n / 2 ^ (Nat.log2 n - 52) + 1) * 2 ^ (Nat.log2 n - 52) ∧
        2 ^ (Nat.log2 n - 52 - 1) ≤ n % 2 ^ (Nat.log2 n - 52)) := by
  have hlt : ¬ n < 2 ^ 53 := by omega
  unfold rne53
  rw [if_neg hlt]
  by_cases h1 : n % 2 ^ (Nat.log2 n - 52) < 2 ^ (Nat.log2 n - 52 - 1)
  · rw [if_pos h1]
    exact Or.inl ⟨rfl, by omega⟩
  · rw [if_neg h1]
    by_cases h2 : n % 2 ^ (Nat.log2 n - 52) = 2 ^ (Nat.log2 n - 52 - 1) ∧
        n / 2 ^ (Nat.log2 n - 52) % 2 = 0
    · rw [if_pos h2]
      exact Or.inl ⟨rfl, by omega⟩
    · rw [if_neg h2]
      exact Or.inr ⟨rfl, by omega⟩

/-- Rounding does not go below a multiple of the step that lies below. -/
theorem mul_le_rne53 {n k : Nat} (h : 2 ^ 53 ≤ n) (hk : k * 2 ^ (Nat.log2 n - 52) ≤ n) :
    k * 2 ^ (Nat.log2 n - 52) ≤ rne53 n := by
  have hd : 0 < 2 ^ (Nat.log2 n - 52) := by positivity
  have hq : k ≤ n / 2 ^ (Nat.log2 n - 52) := (Nat.le_div_iff_mul_le hd).2 hk
  have h1 : k * 2 ^ (Nat.log2 n - 52) ≤ n / 2 ^ (Nat.log2 n - 52) * 2 ^ (Nat.log2 n - 52) :=
    Nat.mul_le_mul_right _ hq
  rcases rne53_cases h with ⟨e, _⟩ | ⟨e, _⟩
  · rw [e]
    exact h1
  · rw [e, Nat.add_mul]
    omega

/-- Rounding does not go above a multiple of the step that lies above. -/
theorem rne53_le_mul {n k : Nat} (h : 2 ^ 53 ≤ n) (hk : n ≤ k * 2 ^ (Nat.log2 n - 52)) :
    rne53 n ≤ k * 2 ^ (Nat.log2 n - 52) := by
  have hd : 0 < 2 ^ (Nat.log2 n - 52) := by positivity
  have hhalf : 0 < 2 ^ (Nat.log2 n - 52 - 1) := by positivity
  have hdiv := Nat.div_add_mod n (2 ^ (Nat.log2 n - 52))
  rw [Nat.mul_comm] at hdiv
  rcases rne53_cases h with ⟨e, _⟩ | ⟨e, hr⟩
  · rw [e]
    omega
  · rw [e]
    apply Nat.mul_le_mul_right
    have hlt : n / 2 ^ (Nat.log2 n - 52) * 2 ^ (Nat.log2 n - 52) <
        k * 2 ^ (Nat.log2 n - 52) := by omega
    have := Nat.lt_of_mul_lt_mul_right hlt
    omega

/-- Rounding moves a number by at most `2 ^ (-53)` of itself upwards. -/
theorem rne53_le_rel (n : Nat) : 2 ^ 53 * rne53 n ≤ (2 ^ 53 + 1) * n := by
  by_cases h : n < 2 ^ 53
  · rw [rne53_of_lt h]
    exact Nat.mul_le_mul_right _ (by norm_num)
  · have h53 : 2 ^ 53 ≤ n := by omega
    have hn : n ≠ 0 := by
      have : 0 < 2 ^ 53 := by norm_num
      omega
    obtain ⟨_, hstep, hlog⟩ := rne53_step h53
    have hself := Nat.log2_self_le hn
    have hdiv := Nat.div_add_mod n (2 ^ (Nat.log2 n - 52))
    rw [Nat.mul_comm] at hdiv
    have hup : rne53 n ≤ n + 2 ^ (Nat.log2 n - 52 - 1) := by
      rcases rne53_cases h53 with ⟨e, _⟩ | ⟨e, hr⟩
      · rw [e]
        omega
      · rw [e, Nat.add_mul]
        omega
    have hhalf : 2 ^ 53 * 2 ^ (Nat.log2 n - 52 - 1) ≤ n := by
      have : 2 ^ 53 * 2 ^ (Nat.log2 n - 52 - 1) = 2 ^ Nat.log2 n := by
        rw [hlog, hstep]
        ring
      omega
    calc 2 ^ 53 * rne53 n ≤ 2 ^ 53 * (n + 2 ^ (Nat.log2 n - 52 - 1)) :=
          Nat.mul_le_mul_left _ hup
      _ = 2 ^ 53 * n + 2 ^ 53 * 2 ^ (Nat.log2 n - 52 - 1) := by ring
      _ ≤ 2 ^ 53 * n + n := by omega
      _ = (2 ^ 53 + 1) * n := by ring

/-- Above `2 ^ 53` the rounded value is at least the power of two below. -/
theorem pow_log2_le_rne53 {n : Nat} (h : 2 ^ 53 ≤ n) : 2 ^ Nat.log2 n ≤ rne53 n := by
  have hn : n ≠ 0 := by
    have : 0 < 2 ^ 53 := by norm_num
    omega
  obtain ⟨_, _, hlog⟩ := rne53_step h
  rw [hlog]
  apply mul_le_rne53 h
  rw [← hlog]
  exact Nat.log2_self_le hn

/-- Above `2 ^ 53` the rounded value is at most the next power of two. -/
theorem rne53_le_pow_log2 {n : Nat} (h : 2 ^ 53 ≤ n) : rne53 n ≤ 2 ^ (Nat.log2 n + 1) := by
  obtain ⟨_, _, hlog⟩ := rne53_step h
  have e : 2 ^ (Nat.log2 n + 1) = 2 ^ 53 * 2 ^ (Nat.log2 n - 52) := by
    rw [pow_succ, hlog]
    ring
  rw [e]
  apply rne53_le_mul h
  rw [← e]
  exact Nat.le_of_lt Nat.lt_log2_self

/-- Rounding to `float64` is monotone. -/
theorem rne53_mono {n m : Nat} (h : n ≤ m) : rne53 n ≤ rne53 m := by
  by_cases hm : m < 2 ^ 53
  · rw [rne53_of_lt hm, rne53_of_lt (by omega)]
    exact h
  have hm53 : 2 ^ 53 ≤ m := by omega
  have hm0 : m ≠ 0 := by
    have : 0 < 2 ^ 53 := by norm_num
    omega
  by_cases hn : n < 2 ^ 53
  · rw [rne53_of_lt hn]
    have h1 := pow_log2_le_rne53 hm53
    have h2 : 2 ^ 53 ≤ 2 ^ Nat.log2 m :=
      Nat.pow_le_pow_right (by norm_num) ((Nat.le_log2 hm0).2 hm53)
    omega
  have hn53 : 2 ^ 53 ≤ n := by omega
  have hn0 : n ≠ 0 := by
    have : 0 < 2 ^ 53 := by norm_num
    omega
  have hlog : Nat.log2 n ≤ Nat.log2 m :=
    (Nat.le_log2 hm0).2 (Nat.le_trans (Nat.log2_self_le hn0) h)
  rcases Nat.eq_or_lt_of_le hlog with heq | hlt
  · have hd : 0 < 2 ^ (Nat.log2 m - 52) := by positivity
    have hq : n / 2 ^ (Nat.log2 m - 52) ≤ m / 2 ^ (Nat.log2 m - 52) :=
      Nat.div_le_div_right h
    have hdm := Nat.div_add_mod m (2 ^ (Nat.log2 m - 52))
    have hdn := Nat.div_add_mod n (2 ^ (Nat.log2 m - 52))
    rw [Nat.mul_comm] at hdm hdn
    have hfloor : m / 2 ^ (Nat.log2 m - 52) * 2 ^ (Nat.log2 m - 52) ≤ rne53 m :=
      mul_le_rne53 hm53 (Nat.div_mul_le_self _ _)
    have cn := rne53_cases hn53
    rw [heq] at cn
    rcases cn with ⟨e, _⟩ | ⟨e, hr⟩
    · rw [e]
      exact Nat.le_trans (Nat.mul_le_mul_right _ hq) hfloor
    · rw [e]
      rcases Nat.eq_or_lt_of_le hq with hqe | hql
      · rcases rne53_cases hm53 with ⟨e2, hr2⟩ | ⟨e2, _⟩
        · have hnm : n = m := by
            rw [hqe] at hdn
            omega
          rw [← e, hnm]
        · rw [e2, hqe]
      · exact Nat.le_trans (Nat.mul_le_mul_right _ hql) hfloor
  · have h1 := rne53_le_pow_log2 hn53
    have h2 := pow_log2_le_rne53 hm53
    have h3 : 2 ^ (Nat.log2 n + 1) ≤ 2 ^ Nat.log2 m :=
      Nat.pow_le_pow_right (by norm_num) hlt
    omega

/-! ## Bucket index -/

theorem index_eq (g len : Nat) : index g len = rne53 (rne53 g * rne53 len) / 256 := by
  simp only [index, float64.toInt, float64.mul, float64.div256, float64.ofNat]
  norm_num

/-- The bucket index is below the length of the alphabet. -/
theorem index_lt {g len : Nat} (hg : g ≤ 255) (hlen : 1 ≤ len) : index g len < len := by
  rw [index_eq, rne53_of_lt (show g < 2 ^ 53 by omega)]
  have h1 := rne53_le_rel (g * rne53 len)
  have h2 := rne53_le_rel len
  generalize rne53 (g * rne53 len) = p at h1 ⊢
  generalize rne53 len = lf at h1 h2
  norm_num at h1 h2
  apply (Nat.div_lt_iff_lt_mul (by norm_num)).2
  have h3 : g * lf ≤ 255 * lf := Nat.mul_le_mul_right _ hg
  nlinarith

/-- Below `2 ^ 45` characters no rounding takes place: the bucket index is
`floor (g * len / 256)`. -/
theorem index_eq_floor {g len : Nat} (hg : g ≤ 255) (hlen : len < 2 ^ 45) :
    index g len = g * len / 256 := by
  have h1 : g * len < 2 ^ 53 := by
    have : g * len ≤ 255 * len := Nat.mul_le_mul_right _ hg
    norm_num at hlen ⊢
    omega
  rw [index_eq, rne53_of_lt (show g < 2 ^ 53 by omega),
    rne53_of_lt (show len < 2 ^ 53 by norm_num at hlen ⊢; omega), rne53_of_lt h1]

/-- The bucket index does not decrease when the sample grows. -/
theorem index_mono {g₁ g₂ : Nat} (h : g₁ ≤ g₂) (len : Nat) : index g₁ len ≤ index g₂ len := by
  rw [index_eq, index_eq]
  exact Nat.div_le_div_right (rne53_mono (Nat.mul_le_mul_right _ (rne53_mono h)))

/-- The sample 0 has bucket index 0, whatever the length. -/
theorem index_zero (len : Nat) : index 0 len = 0 := by
  rw [index_eq, rne53_of_lt (show 0 < 2 ^ 53 by norm_num), Nat.zero_mul,
    rne53_of_lt (show 0 < 2 ^ 53 by norm_num)]

/-- Up to 256 characters the sample 255 has the last bucket index. -/
theorem index_255_of_le {len : Nat} (hlen : 1 ≤ len) (hle : len ≤ 256) :
    index 255 len = len - 1 := by
  rw [index_eq_floor (Nat.le_refl _) (by norm_num; omega)]
  omega

/-- Beyond 256 characters the sample 255 stays below the last bucket index,
also where the conversion or the product is rounded. -/
theorem index_255_of_gt {len : Nat} (hgt : 256 < len) : index 255 len < len - 1 := by
  rw [index_eq, rne53_of_lt (show 255 < 2 ^ 53 by norm_num)]
  have h1 := rne53_le_rel (255 * rne53 len)
  have h2 := rne53_le_rel len
  generalize rne53 (255 * rne53 len) = p at h1 ⊢
  generalize rne53 len = lf at h1 h2
  norm_num at h1 h2
  apply (Nat.div_lt_iff_lt_mul (by norm_num)).2
  omega

/-! ## Renderer -/

theorem printPixel_eq (img : Image) (mapping : alphabet) (hlen : 1 ≤ mapping.length)
    (y x : Int) (line : List UInt8) :
    printPixel img mapping y x line = setIndex line x (pixelByte img mapping x y) := by
  have hlt : index (img.GrayAt x y).toNat mapping.length < mapping.length :=
    index_lt (by have := UInt8.toNat_lt (img.GrayAt x y); omega) hlen
  unfold printPixel pixelByte
  simp only [List.getElem?_eq_getElem hlt, List.getD_eq_getElem?_getD, Option.getD_some]

/-- The inner loop from column `k` on stores the mapped bytes at the positions
`k, ..., k + n - 1` of the line buffer and leaves the other positions alone. -/
theorem forRange_printPixel (img : Image) (mapping : alphabet) (hlen : 1 ≤ mapping.length)
    (y : Int) (n : Nat) :
    ∀ (k : Nat) (buf : List UInt8), k + n ≤ buf.length →
      ∃ res, forRange (printPixel img mapping y) n (k : Int) buf = some res ∧
        res.length = buf.length ∧
        ∀ j : Nat, res[j]? =
          if k ≤ j ∧ j < k + n then some (pixelByte img mapping (j : Int) y) else buf[j]? := by
  induction n with
  | zero =>
    intro k buf _
    refine ⟨buf, rfl, rfl, fun j => ?_⟩
    rw [if_neg (by omega)]
  | succ n ih =>
    intro k buf hk
    have hset : setIndex buf (k : Int) (pixelByte img mapping (k : Int) y) =
        some (buf.set k (pixelByte img mapping (k : Int) y)) := by
      unfold setIndex
      rw [if_pos ⟨by omega, by omega⟩, Int.toNat_ofNat]
    obtain ⟨res, hres, hl, hget⟩ :=
      ih (k + 1) (buf.set k (pixelByte img mapping (k : Int) y))
        (by rw [List.length_set]; omega)
    refine ⟨res, ?_, ?_, fun j => ?_⟩
    · simp only [forRange, printPixel_eq img mapping hlen, hset, Option.some_bind]
      exact_mod_cast hres
    · rw [hl, List.length_set]
    · rw [hget j, List.getElem?_set]
      by_cases h1 : k + 1 ≤ j ∧ j < k + 1 + n
      · rw [if_pos h1, if_pos (by omega)]
      · rw [if_neg h1]
        by_cases h2 : k = j
        · subst h2
          rw [if_pos rfl, if_pos (by omega), if_pos (by omega)]
        · rw [if_neg h2, if_neg (by omega)]

/-- One pass of the inner loop over a buffer of the image's width overwrites
every position: nothing of the previous row is left. -/
theorem forLoop_printPixel (img : Image) (mapping : alphabet) (hlen : 1 ≤ mapping.length)
    (y : Int) (W : Nat) (buf : List UInt8) (hW : buf.length = W) :
    forLoop 0 (W : Int) (printPixel img mapping y) buf = some (rowBytes img mapping W y) := by
  obtain ⟨res, hres, hl, hget⟩ := forRange_printPixel img mapping hlen y W 0 buf (by omega)
  have hrun : forLoop 0 (W : Int) (printPixel img mapping y) buf = some res := by
    unfold forLoop
    rw [Int.sub_zero, Int.toNat_ofNat]
    exact_mod_cast hres
  rw [hrun]
  congr 1
  apply List.ext_getElem?
  intro j
  rw [hget j]
  unfold rowBytes
  rw [List.getElem?_map]
  by_cases hj : j < W
  · rw [if_pos ⟨by omega, by omega⟩, List.getElem?_range hj]
    rfl
  · rw [if_neg (by omega), List.getElem?_eq_none (by omega),
      List.getElem?_eq_none (by rw [List.length_range]; omega)]
    rfl

theorem printRow_eq (img : Image) (mapping : alphabet) (hlen : 1 ≤ mapping.length)
    (W : Nat) (hmin : img.Bounds.Min.X = 0) (hmax : img.Bounds.Max.X = (W : Int))
    (y : Int) (buf out : List UInt8) (hW : buf.length = W) :
    printRow img mapping y (buf, out) =
      some (rowBytes img mapping W y, out ++ (rowBytes img mapping W y ++ [10])) := by
  unfold printRow
  rw [hmin, hmax, forLoop_printPixel img mapping hlen y W buf hW]
  rfl

theorem length_rowBytes (img : Image) (mapping : alphabet) (W : Nat) (y : Int) :
    (rowBytes img mapping W y).length = W := by
  unfold rowBytes
  rw [List.length_map, List.length_range]

theorem rowsFrom_succ (img : Image) (mapping : alphabet) (W : Nat) (y0 : Int) (n : Nat) :
    rowsFrom img mapping W y0 (n + 1) =
      rowBytes img mapping W y0 :: rowsFrom img mapping W (y0 + 1) n := by
  unfold rowsFrom
  rw [List.range_succ_eq_map, List.map_cons, List.map_map]
  congr 1
  · simp
  · apply List.map_congr_left
    intro i _
    simp only [Function.comp, Nat.succ_eq_add_one, Nat.cast_add, Nat.cast_one]
    congr 1
    omega

/-- The outer loop appends the rows `y0, ..., y0 + n - 1`, each followed by a
newline, to the output. -/
theorem forRange_printRow (img : Image) (mapping : alphabet) (hlen : 1 ≤ mapping.length)
    (W : Nat) (hmin : img.Bounds.Min.X = 0) (hmax : img.Bounds.Max.X = (W : Int)) (n : Nat) :
    ∀ (y0 : Int) (buf out : List UInt8), buf.length = W →
      ∃ res, forRange (printRow img mapping) n y0 (buf, out) =
        some (res, out ++ joinLines (rowsFrom img mapping W y0 n)) := by
  induction n with
  | zero =>
    intro y0 buf out _
    exact ⟨buf, by simp [forRange, rowsFrom, joinLines]⟩
  | succ n ih =>
    intro y0 buf out hW
    obtain ⟨res, hres⟩ := ih (y0 + 1) (rowBytes img mapping W y0)
      (out ++ (rowBytes img mapping W y0 ++ [10])) (length_rowBytes img mapping W y0)
    refine ⟨res, ?_⟩
    simp only [forRange, printRow_eq img mapping hlen W hmin hmax y0 buf out hW,
      Option.some_bind]
    rw [hres, rowsFrom_succ]
    simp [joinLines]

/-- An image whose columns start at 0 is rendered row by row. -/
theorem printTo_eq_rows (img : Image) (mapping : alphabet) (hlen : 1 ≤ mapping.length)
    (W H : Nat) (hminX : img.Bounds.Min.X = 0) (hmaxX : img.Bounds.Max.X = (W : Int))
    (hmaxY : img.Bounds.Max.Y = img.Bounds.Min.Y + (H : Int)) (out : List UInt8) :
    printTo img out mapping =
      some (out ++ joinLines (rowsFrom img mapping W img.Bounds.Min.Y H)) := by
  obtain ⟨res, hres⟩ := forRange_printRow img mapping hlen W hminX hmaxX H img.Bounds.Min.Y
    (List.replicate W 0) out (List.length_replicate _ _)
  have hdx : img.Bounds.Dx = (W : Int) := by
    unfold Rectangle.Dx
    rw [hminX, hmaxX, Int.sub_zero]
  have hdy : (img.Bounds.Max.Y - img.Bounds.Min.Y).toNat = H := by
    rw [hmaxY]
    omega
  unfold printTo
  simp only [hdx, Int.toNat_ofNat]
  rw [if_neg (by omega)]
  unfold forLoop
  rw [hdy, hres]
  rfl

/-! ## Facts about the catalogue -/

theorem alphabets_keys :
    alphabets.map Prod.fst =
      [str "heuristic", str "alternate", str "asciifi1", str "asciifi2", str "asciifi3"] := by
  decide

theorem alphabets_entry :
    ∀ p ∈ alphabets, 1 ≤ p.2.length ∧ p.2.length ≤ 25 ∧ (10 : UInt8) ∉ p.2 := by
  decide

theorem alphabets_lookup : ∀ p ∈ alphabets, alphabets.lookup p.1 = some p.2 := by
  decide

theorem alphabets_values_inj : ∀ p ∈ alphabets, ∀ q ∈ alphabets, p.2 = q.2 → p = q := by
  decide

/-- An inner loop that starts left of column 0, or that ends right of the line
buffer, panics in the store `line[x]`. -/
theorem forRange_printPixel_panics (img : Image) (mapping : alphabet)
    (hlen : 1 ≤ mapping.length) (y : Int) (n : Nat) :
    ∀ (x0 : Int) (buf : List UInt8), 0 < n → (x0 < 0 ∨ (buf.length : Int) < x0 + (n : Int)) →
      forRange (printPixel img mapping y) n x0 buf = none := by
  induction n with
  | zero =>
    intro x0 buf h0 _
    exact absurd h0 (Nat.lt_irrefl 0)
  | succ n ih =>
    intro x0 buf _ hx
    simp only [forRange, printPixel_eq img mapping hlen]
    unfold setIndex
    by_cases hin : 0 ≤ x0 ∧ x0 < (buf.length : Int)
    · rw [if_pos hin, Option.some_bind]
      have hn : 0 < n := by
        rcases Nat.eq_zero_or_pos n with h0 | hpos
        · subst h0
          simp only [Nat.cast_add, Nat.cast_zero, Nat.cast_one] at hx
          omega
        · exact hpos
      apply ih _ _ hn
      rw [List.length_set]
      push_cast at hx ⊢
      omega
    · rw [if_neg hin]
      rfl

/-- With a non-empty alphabet, `printTo` panics on every image that has at
least one pixel and whose columns do not start at 0. -/
theorem printTo_panics_of_offset (img : Image) (mapping : alphabet)
    (hlen : 1 ≤ mapping.length) (hx : img.Bounds.Min.X ≠ 0) (hW : 0 < img.Bounds.Dx)
    (hH : 0 < img.Bounds.Dy) (out : List UInt8) : printTo img out mapping = none := by
  unfold Rectangle.Dx at hW
  unfold Rectangle.Dy at hH
  obtain ⟨h, hh⟩ : ∃ h : Nat, (img.Bounds.Max.Y - img.Bounds.Min.Y).toNat = h + 1 :=
    ⟨(img.Bounds.Max.Y - img.Bounds.Min.Y).toNat - 1, by omega⟩
  have hrow : ∀ st : List UInt8 × List UInt8,
      st.1.length = (img.Bounds.Max.X - img.Bounds.Min.X).toNat →
      printRow img mapping img.Bounds.Min.Y st = none := by
    intro st hst
    unfold printRow forLoop
    rw [forRange_printPixel_panics img mapping hlen _ _ _ _ (by omega) (by omega)]
    rfl
  have h1 := hrow (List.replicate (img.Bounds.Max.X - img.Bounds.Min.X).toNat 0, out)
    (List.length_replicate _ _)
  unfold printTo
  simp only [Rectangle.Dx]
  rw [if_neg (by omega)]
  unfold forLoop
  rw [hh]
  simp only [forRange, h1, Option.none_bind, Option.map_none']

/-! ## Claims about the renderer -/

/-- C1 (evaluation at the failing input): the image of one pixel with bounds
`(1,0)-(2,1)` has width 1 and height 1, and with every catalogue alphabet
`printTo` panics on it instead of writing one line of one character: the line
buffer has length `Dx = 1` and the store `line[x]` is attempted at
`x = Min.X = 1`. -/
theorem printTo_offsetImage_panics :
    offsetImage.Bounds.Dx = 1 ∧ offsetImage.Bounds.Dy = 1 ∧
      ∀ p ∈ alphabets, printTo offsetImage [] p.2 = none := by
  decide

/-- C4: for an image with bounds `(0,0)-(W,H)` and a catalogue alphabet `A`,
`printTo` returns and writes `H` lines, in increasing `y`; line `y` has `W` bytes
and no newline, and its byte `x` is `A[floor (g * L / 256)]` for the gray sample
`g` of the pixel `(x, y)` of that same row. -/
theorem printTo_pixels (img : Image) (W H : Nat)
    (hb : img.Bounds = ⟨⟨0, 0⟩, ⟨(W : Int), (H : Int)⟩⟩)
    (name : GoString) (A : alphabet) (hA : (name, A) ∈ alphabets) (out : List UInt8) :
    ∃ rows : List (List UInt8),
      printTo img out A = some (out ++ joinLines rows) ∧ rows.length = H ∧
      (∀ l ∈ rows, (10 : UInt8) ∉ l) ∧
      ∀ y : Nat, y < H → ∃ l, rows[y]? = some l ∧ l.length = W ∧
        ∀ x : Nat, x < W → ∃ c, l[x]? = some c ∧
          A[(img.GrayAt (x : Int) (y : Int)).toNat * A.length / 256]? = some c := by
  obtain ⟨hlen, hle, hnl⟩ := alphabets_entry (name, A) hA
  simp only at hlen hle hnl
  have hpix : ∀ x y : Int, A[(img.GrayAt x y).toNat * A.length / 256]? =
      some (pixelByte img A x y) := by
    intro x y
    have hg : (img.GrayAt x y).toNat ≤ 255 := by
      have := UInt8.toNat_lt (img.GrayAt x y)
      omega
    have hlt := index_lt hg hlen
    rw [index_eq_floor hg (by norm_num; omega)] at hlt
    unfold pixelByte
    rw [index_eq_floor hg (by norm_num; omega), List.getElem?_eq_getElem hlt,
      List.getD_eq_getElem?_getD, List.getElem?_eq_getElem hlt, Option.getD_some]
  have hmem : ∀ x y : Int, pixelByte img A x y ∈ A := by
    intro x y
    exact List.getElem?_mem (hpix x y)
  refine ⟨rowsFrom img A W 0 H, ?_, ?_, ?_, ?_⟩
  · have h := printTo_eq_rows img A hlen W H (by rw [hb]) (by rw [hb])
      (by rw [hb]; simp) out
    rw [h, hb]
  · unfold rowsFrom
    rw [List.length_map, List.length_range]
  · intro l hl h10
    unfold rowsFrom at hl
    obtain ⟨i, _, rfl⟩ := List.mem_map.1 hl
    unfold rowBytes at h10
    obtain ⟨x, _, hx⟩ := List.mem_map.1 h10
    exact hnl (hx ▸ hmem _ _)
  · intro y hy
    refine ⟨rowBytes img A W (y : Int), ?_, length_rowBytes img A W _, ?_⟩
    · unfold rowsFrom
      rw [List.getElem?_map, List.getElem?_range hy]
      simp
    · intro x hx
      refine ⟨pixelByte img A (x : Int) (y : Int), ?_, hpix _ _⟩
      unfold rowBytes
      rw [List.getElem?_map, List.getElem?_range hx]
      rfl

/-- C4 at a concrete input: a white image of two columns and one row, rendered
with the alphabet "alternate". -/
theorem printTo_pixels_witness :
    ∃ rows : List (List UInt8),
      printTo ⟨⟨⟨0, 0⟩, ⟨2, 1⟩⟩, fun _ _ => 255⟩ [] (str "@#8&o:*. ") =
        some ([] ++ joinLines rows) ∧ rows.length = 1 ∧
      (∀ l ∈ rows, (10 : UInt8) ∉ l) ∧
      ∀ y : Nat, y < 1 → ∃ l, rows[y]? = some l ∧ l.length = 2 ∧
        ∀ x : Nat, x < 2 → ∃ c, l[x]? = some c ∧
          (str "@#8&o:*. ")[(255 : UInt8).toNat * (str "@#8&o:*. ").length / 256]? = some c :=
  printTo_pixels ⟨⟨⟨0, 0⟩, ⟨2, 1⟩⟩, fun _ _ => 255⟩ 2 1 rfl (str "alternate") (str "@#8&o:*. ")
    (by decide) []

/-! ## Claims about the luminance mapping -/

/-- C2: for every alphabet of length `L ≥ 1` and every sample `g` in `0..255`
the index `int(g / 256 * L)` computed by `printTo` satisfies `0 ≤ index < L`,
and the lookup `mapping[index]` returns a byte. -/
theorem index_in_range (mapping : alphabet) (g : Nat) (hlen : 1 ≤ mapping.length)
    (hg : g ≤ 255) :
    0 ≤ index g mapping.length ∧ index g mapping.length < mapping.length ∧
      ∃ c, mapping[index g mapping.length]? = some c := by
  have hlt := index_lt hg hlen
  exact ⟨Nat.zero_le _, hlt, mapping[index g mapping.length], List.getElem?_eq_getElem hlt⟩

/-- C2 at a concrete input: the alphabet "alternate" and the sample 200. -/
theorem index_in_range_witness :
    0 ≤ index 200 (str "@#8&o:*. ").length ∧
      index 200 (str "@#8&o:*. ").length < (str "@#8&o:*. ").length ∧
      ∃ c, (str "@#8&o:*. ")[index 200 (str "@#8&o:*. ").length]? = some c :=
  index_in_range (str "@#8&o:*. ") 200 (by decide) (by decide)

/-- C3 (counterexample): in the alphabet of 257 bytes made of 256 times `a` and
one `b`, the sample 255 has index 255 and is sent to `a`, whereas the last
byte, at index 256, is `b`. -/
theorem last_char_counterexample :
    wideAlphabet.length = 257 ∧ index 255 wideAlphabet.length = 255 ∧
      wideAlphabet[index 255 wideAlphabet.length]? = some (byteOf 'a') ∧
      wideAlphabet[wideAlphabet.length - 1]? = some (byteOf 'b') := by
  have hlen : wideAlphabet.length = 257 := by
    unfold wideAlphabet
    rw [List.length_append, List.length_replicate, List.length_singleton]
  have hidx : index 255 257 = 255 := by decide
  rw [hlen, hidx]
  refine ⟨rfl, rfl, ?_, ?_⟩
  · unfold wideAlphabet
    rw [List.getElem?_append_left (by rw [List.length_replicate]; omega),
      List.getElem?_replicate]
    rfl
  · unfold wideAlphabet
    rw [List.getElem?_append_right (by rw [List.length_replicate]),
      List.length_replicate]
    rfl

/-- C3 (amended): for every alphabet of length `L ≥ 1` the mapping sends
`g = 0` to the first byte `A[0]`; when `L ≤ 256` it sends `g = 255` to the last
byte `A[L - 1]`; and when `L > 256` the index chosen for `g = 255` is smaller
than `L - 1`. -/
theorem first_last_char (mapping : alphabet) (hlen : 1 ≤ mapping.length) :
    (∃ first, mapping[0]? = some first ∧ mapping[index 0 mapping.length]? = some first) ∧
      (mapping.length ≤ 256 →
        ∃ last, mapping[mapping.length - 1]? = some last ∧
          mapping[index 255 mapping.length]? = some last) ∧
      (256 < mapping.length → index 255 mapping.length < mapping.length - 1) := by
  refine ⟨?_, fun hle => ?_, fun hgt => index_255_of_gt hgt⟩
  · rw [index_zero]
    exact ⟨mapping[0], List.getElem?_eq_getElem (by omega), List.getElem?_eq_getElem (by omega)⟩
  · rw [index_255_of_le hlen hle]
    exact ⟨mapping[mapping.length - 1], List.getElem?_eq_getElem (by omega),
      List.getElem?_eq_getElem (by omega)⟩

/-- C3 (amended) at a concrete input: the alphabet "asciifi1", of 13 bytes. -/
theorem first_last_char_witness :
    1 ≤ (str "@GCLftli;:,. ").length ∧
      (∃ first, (str "@GCLftli;:,. ")[0]? = some first ∧
        (str "@GCLftli;:,. ")[index 0 (str "@GCLftli;:,. ").length]? = some first) ∧
      ∃ last, (str "@GCLftli;:,. ")[(str "@GCLftli;:,. ").length - 1]? = some last ∧
        (str "@GCLftli;:,. ")[index 255 (str "@GCLftli;:,. ").length]? = some last :=
  ⟨by decide, (first_last_char (str "@GCLftli;:,. ") (by decide)).1,
    (first_last_char (str "@GCLftli;:,. ") (by decide)).2.1 (by decide)⟩

/-- C5: for every alphabet length `L ≥ 1` and all samples `g₁ ≤ g₂` in `0..255`
the index of `g₁` is at most the index of `g₂`. -/
theorem index_monotone (L : Nat) (_hL : 1 ≤ L) (g₁ g₂ : Nat) (h : g₁ ≤ g₂) (_h₂ : g₂ ≤ 255) :
    index g₁ L ≤ index g₂ L :=
  index_mono h L

/-- C5 at a concrete input: the samples 100 and 101 and the length 16. -/
theorem index_monotone_witness : index 100 16 ≤ index 101 16 :=
  index_monotone 16 (by decide) 100 101 (by decide) (by decide)

/-- C6: the catalogue alphabet named heuristic has length 16 and the mapping
sends `g = 0` to `#`, `g = 255` to the space that ends it, and `g = 128` to
index 8, whose character is `O`. -/
theorem heuristic_examples :
    ∃ A, alphabets.lookup (str "heuristic") = some A ∧ A.length = 16 ∧
      A[index 0 A.length]? = some (byteOf '#') ∧
      A[index 255 A.length]? = some (byteOf ' ') ∧ A.getLast? = some (byteOf ' ') ∧
      index 128 A.length = 8 ∧ A[index 128 A.length]? = some (byteOf 'O') :=
  ⟨str "#=$8Z7I\\O?+:-,. ", by decide⟩

/-! ## Claims about the alphabet registry -/

theorem mem_of_lookup_eq_some {name v : GoString} :
    ∀ {l : List (GoString × alphabet)}, l.lookup name = some v → (name, v) ∈ l := by
  intro l
  induction l with
  | nil =>
    intro h
    simp [List.lookup] at h
  | cons p l ih =>
    intro h
    obtain ⟨k, u⟩ := p
    by_cases hk : name = k
    · subst hk
      rw [List.lookup_cons, beq_self_eq_true] at h
      simp only [Option.some.injEq] at h
      subst h
      exact List.mem_cons_self _ _
    · have hb : (name == k) = false := beq_false_of_ne hk
      rw [List.lookup_cons, hb] at h
      exact List.mem_cons_of_mem _ (ih h)

/-- C7: `Set(name)` returns an error if and only if `name` is not one of the
five keys of the catalogue; when it succeeds the receiver becomes the
catalogue's sequence for `name`, and when it fails the receiver is unchanged. -/
theorem Set_spec (a : alphabet) (name : GoString) :
    ((alphabet.Set a name).2 ≠ none ↔
        name ∉ [str "heuristic", str "alternate", str "asciifi1", str "asciifi2",
          str "asciifi3"]) ∧
      (∀ v, (name, v) ∈ alphabets → alphabet.Set a name = (v, none)) ∧
      ((alphabet.Set a name).2 = none → (name, (alphabet.Set a name).1) ∈ alphabets) ∧
      ((alphabet.Set a name).2 ≠ none → (alphabet.Set a name).1 = a) := by
  rw [← alphabets_keys]
  cases hlook : alphabets.lookup name with
  | none =>
    have hset : alphabet.Set a name = (a, some (str "no such alphabet " ++ name)) := by
      unfold alphabet.Set
      rw [hlook]
    have hnot : ∀ v, (name, v) ∉ alphabets := by
      intro v hv
      have := alphabets_lookup (name, v) hv
      rw [hlook] at this
      exact Option.noConfusion this
    rw [hset]
    refine ⟨⟨fun _ hmem => ?_, fun _ => by simp⟩, fun v hv => absurd hv (hnot v),
      fun h => by simp at h, fun _ => rfl⟩
    obtain ⟨p, hp, hname⟩ := List.mem_map.1 hmem
    obtain ⟨k, v⟩ := p
    simp only at hname
    subst hname
    exact hnot v hp
  | some u =>
    have hset : alphabet.Set a name = (u, none) := by
      unfold alphabet.Set
      rw [hlook]
    have hmem : (name, u) ∈ alphabets := mem_of_lookup_eq_some hlook
    rw [hset]
    refine ⟨⟨fun h => absurd rfl h, fun h => absurd (List.mem_map.2 ⟨(name, u), hmem, rfl⟩) h⟩,
      fun v hv => ?_, fun _ => hmem, fun h => absurd rfl h⟩
    have := alphabets_lookup (name, v) hv
    rw [hlook] at this
    simp only [Option.some.injEq] at this
    rw [this]

/-- C8: the five sequences of the catalogue are pairwise distinct, so that in
whatever order the map is visited `String()` of the sequence of a catalogue name
is that name; and `String()` of a value equal to no catalogue sequence is
"unknown". -/
theorem String_roundtrip (order : List (GoString × alphabet)) (hperm : order.Perm alphabets) :
    (alphabets.map Prod.snd).Nodup ∧
      (∀ n v, (n, v) ∈ alphabets → alphabet.String order v = n) ∧
      (∀ c, (∀ n v, (n, v) ∈ alphabets → c ≠ v) → alphabet.String order c = str "unknown") := by
  refine ⟨by decide, fun n v hv => ?_, fun c hc => ?_⟩
  · unfold alphabet.String
    cases hfind : order.find? (fun kv => v == kv.2) with
    | none =>
      have h := List.find?_eq_none.1 hfind (n, v) (hperm.mem_iff.2 hv)
      simp at h
    | some kv =>
      have h1 : v = kv.2 := by
        have := List.find?_some hfind
        simpa using this
      have h2 : kv ∈ alphabets := hperm.mem_iff.1 (List.mem_of_find?_eq_some hfind)
      have h3 := alphabets_values_inj (n, v) hv kv h2 h1
      rw [← h3]
  · unfold alphabet.String
    cases hfind : order.find? (fun kv => c == kv.2) with
    | none => rfl
    | some kv =>
      have h1 : c = kv.2 := by
        have := List.find?_some hfind
        simpa using this
      have h2 : kv ∈ alphabets := hperm.mem_iff.1 (List.mem_of_find?_eq_some hfind)
      exact absurd h1 (hc kv.1 kv.2 h2)

/-- C8 at a concrete input: the catalogue visited in reverse order. -/
theorem String_roundtrip_witness :
    alphabets.reverse.Perm alphabets ∧
      alphabet.String alphabets.reverse (str "@#8&o:*. ") = str "alternate" ∧
      alphabet.String alphabets.reverse (str "abc") = str "unknown" :=
  ⟨List.reverse_perm _,
    (String_roundtrip alphabets.reverse (List.reverse_perm _)).2.1 _ _ (by decide),
    (String_roundtrip alphabets.reverse (List.reverse_perm _)).2.2 _
      (fun n v h => (by decide : ∀ p ∈ alphabets, str "abc" ≠ p.2) (n, v) h)⟩

/-! ## Claims about the command line -/

/-- A first argument of fewer than four bytes makes `main` panic in `inf[:4]`. -/
theorem main_short_panics (w : World) (width : Int) (flagValue : alphabet)
    (inf : GoString) (rest : List GoString) (h : inf.length < 4) :
    main w width flagValue (inf :: rest) = Outcome.panic := by
  have hs : sliceTo inf 4 = none := by
    unfold sliceTo
    rw [if_neg (by omega)]
  simp only [main, openInput, hs]

/-- A first argument of at least four bytes is fetched as a URL exactly when it
begins with "http", and is opened as a file otherwise. -/
theorem openInput_long (w : World) (inf : GoString) (rest : List GoString)
    (h : 4 ≤ inf.length) :
    (inf.take 4 = str "http" →
        openInput w (inf :: rest) =
          match w.httpGet inf with
          | none => .error (.exit 1)
          | some status => if status ≠ 200 then .error (.exit 1) else .ok (.httpBody inf)) ∧
      (inf.take 4 ≠ str "http" →
        openInput w (inf :: rest) =
          if w.osOpen inf then .ok (.file inf) else .error (.exit 1)) := by
  have hs : sliceTo inf 4 = some (inf.take 4) := by
    unfold sliceTo
    rw [if_pos h]
  constructor
  · intro hp
    simp only [openInput, hs, hp, if_true]
  · intro hp
    simp only [openInput, hs, hp, if_false]

/-- C9 (evaluation at the failing input): with the first positional argument
"-", and likewise with "a" or the empty string, `main` panics in the slice
expression `inf[:4]`, whatever the flags, the further arguments and the
behaviour of the collaborators. -/
theorem main_dash_panics (w : World) (width : Int) (flagValue : alphabet)
    (rest : List GoString) :
    main w width flagValue (str "-" :: rest) = Outcome.panic ∧
      main w width flagValue (str "a" :: rest) = Outcome.panic ∧
      main w width flagValue (str "" :: rest) = Outcome.panic :=
  ⟨main_short_panics w width flagValue _ rest (by decide),
    main_short_panics w width flagValue _ rest (by decide),
    main_short_panics w width flagValue _ rest (by decide)⟩

/-- C10 (counterexample): when nothing can be opened or fetched, a run on a
file path ends with exit code 1, the code with which a run on a URL ends. -/
theorem input_open_exit_code_counterexample :
    main failingWorld 80 (str "#=$8Z7I\\O?+:-,. ") [str "missing.png"] = Outcome.exit 1 ∧
      main failingWorld 80 (str "#=$8Z7I\\O?+:-,. ") [str "http://example.org/a.png"] =
        Outcome.exit 1 := by
  decide

/-- C10 (amended): a failed HTTP fetch or a response other than 200 ends `main`
with exit code 1, a failure to open the input file also with 1, a failure to
open the output file with 2 and a failure to decode the image with 3; the code
of the input file failure is not zero and differs from 2 and 3. -/
theorem main_exit_codes (w : World) (width : Int) (flagValue : alphabet) :
    (∀ inf rest, 4 ≤ inf.length → inf.take 4 = str "http" →
        (w.httpGet inf = none ∨ ∃ status, w.httpGet inf = some status ∧ status ≠ 200) →
        main w width flagValue (inf :: rest) = Outcome.exit 1) ∧
      (∀ inf rest, 4 ≤ inf.length → inf.take 4 ≠ str "http" → w.osOpen inf = false →
        main w width flagValue (inf :: rest) = Outcome.exit 1) ∧
      (∀ inf outf rest inp, openInput w (inf :: outf :: rest) = .ok inp →
        w.osOpen outf = false →
        main w width flagValue (inf :: outf :: rest) = Outcome.exit 2) ∧
      (∀ args inp out, openInput w args = .ok inp → openOutput w args = .ok out →
        w.decode inp = none → main w width flagValue args = Outcome.exit 3) ∧
      (1 : Nat) ≠ 0 ∧ (1 : Nat) ≠ 2 ∧ (1 : Nat) ≠ 3 := by
  refine ⟨?_, ?_, ?_, ?_, by decide, by decide, by decide⟩
  · intro inf rest hlen hp hget
    have hin := (openInput_long w inf rest hlen).1 hp
    rcases hget with hnone | ⟨status, hsome, hne⟩
    · rw [hnone] at hin
      simp only [main, hin]
    · rw [hsome] at hin
      simp only [hne, ne_eq, not_false_eq_true, if_true] at hin
      simp only [main, hin]
  · intro inf rest hlen hp hopen
    have hin := (openInput_long w inf rest hlen).2 hp
    rw [hopen] at hin
    simp only [main, hin]
    rfl
  · intro inf outf rest inp hin hopen
    simp only [main, hin, openOutput, hopen]
    rfl
  · intro args inp out hin hout hdec
    simp only [main, hin, hout, hdec]

/-- The exit codes 2 and 3 are reached: with an input that opens, an output
path that does not open ends the run with 2, and an input that does not decode
ends it with 3. -/
theorem main_exit_examples :
    main ⟨fun _ => none, fun path => path == str "in.png", fun _ => none, fun _ img => img⟩ 80
        (str "@#8&o:*. ") [str "in.png", str "out.txt"] = Outcome.exit 2 ∧
      main ⟨fun _ => none, fun path => path == str "in.png", fun _ => none, fun _ img => img⟩ 80
        (str "@#8&o:*. ") [str "in.png"] = Outcome.exit 3 := by
  decide

end Asciiart
